import Mathlib

/-!
Shallow embedding of `src/main.py` (py_automation_for_card_cover): a
collage builder that normalizes photo images (bottom-strip color
sampling, border extension, resize) and tiles them onto 90x90 cm
canvases in a 15x10 grid, exporting PNG/PDF/SVG/EPS.

Raster primitives (`PIL.Image` / `PIL.ImageOps`) are embedded from
their documented semantics; an image is a width, a height and a pixel
function.  Machine arithmetic is Nat/Int; Python `round` (half to
even) and true division are modelled over `ℚ`.
-/

namespace CardCover

/-- An RGB color triple, one `ℕ` per channel (0-255 in the program). -/
abbrev Color := ℕ × ℕ × ℕ

/-- Pure white `(255, 255, 255)`, the background and fallback color of the program. -/
def white : Color := (255, 255, 255)

/-- Python builtin `round` on an exact rational: nearest integer,
ties to even (banker rounding). -/
def pyRound (q : ℚ) : ℤ :=
  let f : ℤ := ⌊q⌋
  if q - f < 1 / 2 then f
  else if q - f > 1 / 2 then f + 1
  else if f % 2 = 0 then f else f + 1

/-- Source `DPI = 300` (src/main.py:13). -/
def DPI : ℕ := 300

/-- Source `CM_TO_PX = lambda cm: round(cm * (DPI / 2.54))` (src/main.py:14),
over exact rationals. -/
def CM_TO_PX (cm : ℚ) : ℤ := pyRound (cm * ((DPI : ℚ) / 2.54))

/-- Source `CANVAS_CM = 90` (src/main.py:16). -/
def CANVAS_CM : ℚ := 90

/-- Source `CANVAS_SIZE = CM_TO_PX(CANVAS_CM)` (src/main.py:17); the value is
nonnegative, kept as `ℕ`. -/
def CANVAS_SIZE : ℕ := (CM_TO_PX CANVAS_CM).toNat

/-- Source `COLUMNS = 15` (src/main.py:18). -/
def COLUMNS : ℕ := 15

/-- Source `ROWS = 10` (src/main.py:19). -/
def ROWS : ℕ := 10

/-- Source `CELL_WIDTH = CANVAS_SIZE // COLUMNS` (src/main.py:21); Python `//`
on nonnegative ints is `ℕ` division. -/
def CELL_WIDTH : ℕ := CANVAS_SIZE / COLUMNS

/-- Source `CELL_HEIGHT = CANVAS_SIZE // ROWS` (src/main.py:22). -/
def CELL_HEIGHT : ℕ := CANVAS_SIZE / ROWS

/-- Source `AVERAGE_COLOR = False` (src/main.py:11). -/
def AVERAGE_COLOR : Bool := false

/-- Source `EXTEND_TOP_BOTTOM = 30` (src/main.py:29). -/
def EXTEND_TOP_BOTTOM : ℕ := 30

/-- Source `EXTEND_LEFT_RIGHT = 15` (src/main.py:30). -/
def EXTEND_LEFT_RIGHT : ℕ := 15

/-- Source `BASE_IMAGE_WIDTH_PX = CM_TO_PX(IMAGE_WIDTH_CM)` with
`IMAGE_WIDTH_CM = 5.4` (src/main.py:24,32). -/
def BASE_IMAGE_WIDTH_PX : ℕ := (CM_TO_PX 5.4).toNat

/-- Source `BASE_IMAGE_HEIGHT_PX = CM_TO_PX(IMAGE_HEIGHT_CM)` with
`IMAGE_HEIGHT_CM = 8.56` (src/main.py:25,33). -/
def BASE_IMAGE_HEIGHT_PX : ℕ := (CM_TO_PX 8.56).toNat

/-- Source `EXTEND_COLOR_PX = CM_TO_PX(EXTEND_COLOR_CM)` with
`EXTEND_COLOR_CM = 0.15` (src/main.py:26,34). -/
def EXTEND_COLOR_PX : ℕ := (CM_TO_PX 0.15).toNat

/-- Source `WHITE_BORDER_PX = CM_TO_PX(WHITE_BORDER_CM)` with
`WHITE_BORDER_CM = 0.00` (src/main.py:27,35). -/
def WHITE_BORDER_PX : ℕ := (CM_TO_PX 0).toNat

/-- Source `DESIGN_FINAL_WIDTH_PX` (src/main.py:37-39). -/
def DESIGN_FINAL_WIDTH_PX : ℕ :=
  BASE_IMAGE_WIDTH_PX + 2 * (EXTEND_COLOR_PX + WHITE_BORDER_PX)

/-- Source `DESIGN_FINAL_HEIGHT_PX` (src/main.py:40-42). -/
def DESIGN_FINAL_HEIGHT_PX : ℕ :=
  BASE_IMAGE_HEIGHT_PX + 2 * (EXTEND_COLOR_PX + WHITE_BORDER_PX)

/-- A decoded RGB raster buffer: dimensions plus a pixel lookup
(row-major addressing `pixel x y` with `x < width`, `y < height`). -/
structure Img where
  width : ℕ
  height : ℕ
  pixel : ℕ → ℕ → Color

/-- Source `Image.crop(box)` with box `(l, u, r, b)` in `ℤ` coordinates:
the result is `(r-l) x (b-u)`; pixels whose source coordinate falls
outside the image are filled with black `(0,0,0)`, per the
documented Pillow out-of-bounds behavior. -/
def crop (image : Img) (l u r b : ℤ) : Img where
  width := (r - l).toNat
  height := (b - u).toNat
  pixel := fun x y =>
    if 0 ≤ l + x ∧ l + x < (image.width : ℤ) ∧ 0 ≤ u + y ∧ u + y < (image.height : ℤ)
    then image.pixel (l + x).toNat (u + y).toNat
    else (0, 0, 0)

/-- Source `image.getdata()` flattened row-major, as produced by
`list(strip.getdata())` (src/main.py:58,85). -/
def getdata (image : Img) : List Color :=
  (List.range image.height).flatMap fun y =>
    (List.range image.width).map fun x => image.pixel x y

/-- The bottom strip `image.crop((0, image.height - strip_height,
image.width, image.height))` shared by both samplers
(src/main.py:55-57 and 82-84); the subtraction is over `ℤ` as in
Python.  The preceding RGB conversion `image.convert` is the
identity here since the model is already RGB. -/
def bottom_strip (image : Img) (strip_height : ℕ) : Img :=
  crop image 0 ((image.height : ℤ) - strip_height) image.width image.height

/-- Source `get_bottom_average_color` (src/main.py:49-72): per-channel sums
over the bottom strip, each integer-divided by the pixel count; white
fallback when the strip has no pixels. -/
def get_bottom_average_color (image : Img) (strip_height : ℕ := 1) : Color :=
  let pixels := getdata (bottom_strip image strip_height)
  let num_pixels := pixels.length
  if num_pixels = 0 then (255, 255, 255)
  else
    ((pixels.map fun p => p.1).sum / num_pixels,
     (pixels.map fun p => p.2.1).sum / num_pixels,
     (pixels.map fun p => p.2.2).sum / num_pixels)

/-- Distinct elements of a list in first-occurrence order, with an
explicit recursion bound so the definition is structural (the bound
`l.length` always suffices). -/
def firstOccsAux : ℕ → List Color → List Color
  | 0, _ => []
  | _ + 1, [] => []
  | fuel + 1, a :: t => a :: firstOccsAux fuel (t.filter fun b => b ≠ a)

/-- Distinct elements of a list in first-occurrence order: the key
order of a Python `Counter` built from the list (insertion-ordered
dict). -/
def firstOccs (l : List Color) : List Color := firstOccsAux l.length l

/-- Scan candidate colors keeping the one with the strictly largest
count in `l`; on ties the earlier candidate wins, matching
`Counter.most_common(1)` (stable selection over insertion order). -/
def maxByCount (l : List Color) : List Color → Color → Color
  | [], best => best
  | c :: t, best =>
      if l.count best < l.count c then maxByCount l t c else maxByCount l t best

/-- Source `Counter(l).most_common(1)[0][0]` for a nonempty `l`; `d` is a
default for the empty list (never reached in the program). -/
def most_common1 (l : List Color) (d : Color) : Color :=
  match firstOccs l with
  | [] => d
  | c :: t => maxByCount l t c

/-- Source `get_bottom_color` (src/main.py:75-93): most common non-white
color of the bottom strip, or white when the strip holds only white
pixels (or nothing). -/
def get_bottom_color (image : Img) (strip_height : ℕ := 1) : Color :=
  let pixels := getdata (bottom_strip image strip_height)
  let non_white_pixels := pixels.filter fun p => p ≠ (255, 255, 255)
  if non_white_pixels.isEmpty then (255, 255, 255)
  else most_common1 non_white_pixels (255, 255, 255)

/-- Source `ImageOps.expand(image, border=(left, top, right, bottom), fill)`:
a new buffer grown by the border margins, original pixels shifted by
`(left, top)`, border filled with `fill`. -/
def expand (image : Img) (left top right bottom : ℕ) (fill : Color) : Img where
  width := left + image.width + right
  height := top + image.height + bottom
  pixel := fun x y =>
    if left ≤ x ∧ x < left + image.width ∧ top ≤ y ∧ y < top + image.height
    then image.pixel (x - left) (y - top)
    else fill

/-- Source `image.resize((w, h), LANCZOS)` (src/main.py:125-128): the result
has exactly the requested dimensions. The LANCZOS resampling kernel is
an external library primitive (spec excludes raster codecs); its
content is modelled as coordinate-proportional sampling, which no
theorem below depends on. -/
def resize (image : Img) (w h : ℕ) : Img where
  width := w
  height := h
  pixel := fun x y => image.pixel (x * image.width / w) (y * image.height / h)

/-- Source `ImageOps.fit(img, (w, h), LANCZOS, centering=(0.5, 0.5))`
(src/main.py:150-155): scale-to-cover then center-crop, yielding
exactly `w x h`. As with `resize`, the resampled content is an
external primitive modelled as coordinate-proportional sampling; only
the output dimensions matter to the theorems below. -/
def fit (image : Img) (w h : ℕ) : Img where
  width := w
  height := h
  pixel := fun x y => image.pixel (x * image.width / w) (y * image.height / h)

/-- Source `canvas.paste(img, (x, y))`: overwrite the `img.width x img.height`
region at origin `(x, y)`, leaving the rest of the canvas unchanged. -/
def paste (canvas image : Img) (x y : ℕ) : Img where
  width := canvas.width
  height := canvas.height
  pixel := fun px py =>
    if x ≤ px ∧ px < x + image.width ∧ y ≤ py ∧ py < y + image.height
    then image.pixel (px - x) (py - y)
    else canvas.pixel px py

/-- Source `process_image` after a successful decode (src/main.py:100-129):
sample the bottom-strip color (strip height 5), extend by the fixed
margins filled with it, optionally add a white border (skipped since
`WHITE_BORDER_PX = 0`), and resize to the design dimension. -/
def process_image (image : Img) : Img :=
  let bottom_avg_color :=
    if AVERAGE_COLOR then get_bottom_average_color image 5
    else get_bottom_color image 5
  let extended_image :=
    expand image EXTEND_LEFT_RIGHT EXTEND_TOP_BOTTOM EXTEND_LEFT_RIGHT
      EXTEND_TOP_BOTTOM bottom_avg_color
  let extended_image :=
    if 0 < WHITE_BORDER_PX then
      expand extended_image WHITE_BORDER_PX WHITE_BORDER_PX WHITE_BORDER_PX
        WHITE_BORDER_PX (255, 255, 255)
    else extended_image
  resize extended_image DESIGN_FINAL_WIDTH_PX DESIGN_FINAL_HEIGHT_PX

/-- The blank canvas `Image.new("RGB", (CANVAS_SIZE, CANVAS_SIZE),
(255, 255, 255))` (src/main.py:141): solid white. -/
def blank_canvas : Img where
  width := CANVAS_SIZE
  height := CANVAS_SIZE
  pixel := fun _ _ => (255, 255, 255)

/-- The paste schedule of the loop in `create_collage` (src/main.py:143-156):
for the image at chunk-local index `i`, the cell coordinates are
`row = i // COLUMNS`, `col = i % COLUMNS` and the fitted image is
pasted at `(col * CELL_WIDTH, row * CELL_HEIGHT)`. -/
def collage_pastes (processed_images : List Img) : List (Img × ℕ × ℕ) :=
  processed_images.enum.map fun p =>
    (fit p.2 CELL_WIDTH CELL_HEIGHT,
     (p.1 % COLUMNS) * CELL_WIDTH,
     (p.1 / COLUMNS) * CELL_HEIGHT)

/-- The canvas composed by `create_collage` before export
(src/main.py:141-156): fold the paste schedule over the white canvas. -/
def create_collage_canvas (processed_images : List Img) : Img :=
  (collage_pastes processed_images).foldl
    (fun canvas q => paste canvas q.1 q.2.1 q.2.2) blank_canvas

/-- How a composed canvas is encoded on disk. -/
inductive Encoding where
  | png
  | pdf
  | svgEmbeddedPng
  | eps
deriving DecidableEq

/-- The export dispatch of `create_collage` (src/main.py:158-181):
output path (under `output/`) and encoding chosen from the format
selector, with a PNG fallback for anything unrecognized.  The SVG
branch base64-embeds a temporary PNG into an SVG wrapper. -/
def collage_output (output_format : String) (canvas_index : ℕ) : String × Encoding :=
  let base_name := "final_canvas_" ++ toString canvas_index
  if output_format = "png" then ("output/" ++ base_name ++ ".png", Encoding.png)
  else if output_format = "pdf" then ("output/" ++ base_name ++ ".pdf", Encoding.pdf)
  else if output_format = "svg" then
    ("output/" ++ base_name ++ ".svg", Encoding.svgEmbeddedPng)
  else if output_format = "ai" then ("output/" ++ base_name ++ ".eps", Encoding.eps)
  else ("output/" ++ base_name ++ ".png", Encoding.png)

/-- The batching loop of `main` (src/main.py:249-255):
`for i in range(0, len(processed_images), K): processed_images[i:i+K]`
rendered as successive `take`/`drop` slices of size `K`. -/
def chunksOf (K : ℕ) (l : List Img) : List (List Img) :=
  if h : K = 0 ∨ l.isEmpty then []
  else l.take K :: chunksOf K (l.drop K)
termination_by l.length
decreasing_by
  push_neg at h
  have hl : l ≠ [] := by simpa [List.isEmpty_iff] using h.2
  simpa using Nat.sub_lt (List.length_pos.mpr hl) (Nat.pos_of_ne_zero h.1)

/-- The list comprehension `[process_image(file) for file in files]`
(src/main.py:246) over already-decoded inputs: `none` stands for a
file whose decode raises.  Evaluation is left to right and the first
failure aborts the whole comprehension with no placeholder value. -/
def process_all : List (Option Img) → Option (List Img)
  | [] => some []
  | none :: _ => none
  | some img :: rest => (process_all rest).map fun r => process_image img :: r

/-- The decoded images actually produced by the comprehension before
it aborts: everything strictly before the first failing file. -/
def processed_prefix : List (Option Img) → List Img
  | [] => []
  | none :: _ => []
  | some img :: rest => process_image img :: processed_prefix rest

/-- The canvases composed and written by `main` (src/main.py:228-258):
process every input, then cut the result into `COLUMNS * ROWS`-sized
chunks and compose one canvas per chunk.  The top-level
`try/except` means a processing failure yields no canvas at all. -/
def main_canvases (decoded : List (Option Img)) : List Img :=
  match process_all decoded with
  | none => []
  | some processed_images =>
      (chunksOf (COLUMNS * ROWS) processed_images).map create_collage_canvas

/-! Values of the derived pixel constants. -/

/-- Source `CANVAS_SIZE = round(90 * 300 / 2.54) = 10630`. -/
theorem CANVAS_SIZE_eq : CANVAS_SIZE = 10630 := by
  unfold CANVAS_SIZE CM_TO_PX CANVAS_CM DPI pyRound
  norm_num
  rfl

/-- Source `CELL_WIDTH = 10630 // 15 = 708`. -/
theorem CELL_WIDTH_eq : CELL_WIDTH = 708 := by
  unfold CELL_WIDTH COLUMNS
  rw [CANVAS_SIZE_eq]

/-- Source `CELL_HEIGHT = 10630 // 10 = 1063`. -/
theorem CELL_HEIGHT_eq : CELL_HEIGHT = 1063 := by
  unfold CELL_HEIGHT ROWS
  rw [CANVAS_SIZE_eq]

/-- Source `BASE_IMAGE_WIDTH_PX = round(5.4 * 300 / 2.54) = 638`. -/
theorem BASE_IMAGE_WIDTH_PX_eq : BASE_IMAGE_WIDTH_PX = 638 := by
  unfold BASE_IMAGE_WIDTH_PX CM_TO_PX DPI pyRound
  norm_num
  rfl

/-- Source `BASE_IMAGE_HEIGHT_PX = round(8.56 * 300 / 2.54) = 1011`. -/
theorem BASE_IMAGE_HEIGHT_PX_eq : BASE_IMAGE_HEIGHT_PX = 1011 := by
  unfold BASE_IMAGE_HEIGHT_PX CM_TO_PX DPI pyRound
  norm_num
  rfl

/-- Source `EXTEND_COLOR_PX = round(0.15 * 300 / 2.54) = 18`. -/
theorem EXTEND_COLOR_PX_eq : EXTEND_COLOR_PX = 18 := by
  unfold EXTEND_COLOR_PX CM_TO_PX DPI pyRound
  norm_num
  rfl

/-- Source `WHITE_BORDER_PX = 0`: the secondary white border is disabled. -/
theorem WHITE_BORDER_PX_eq : WHITE_BORDER_PX = 0 := by
  unfold WHITE_BORDER_PX CM_TO_PX DPI pyRound
  norm_num

/-- Source `DESIGN_FINAL_WIDTH_PX = 638 + 2 * 18 = 674`. -/
theorem DESIGN_FINAL_WIDTH_PX_eq : DESIGN_FINAL_WIDTH_PX = 674 := by
  unfold DESIGN_FINAL_WIDTH_PX
  rw [BASE_IMAGE_WIDTH_PX_eq, EXTEND_COLOR_PX_eq, WHITE_BORDER_PX_eq]

/-- Source `DESIGN_FINAL_HEIGHT_PX = 1011 + 2 * 18 = 1047`. -/
theorem DESIGN_FINAL_HEIGHT_PX_eq : DESIGN_FINAL_HEIGHT_PX = 1047 := by
  unfold DESIGN_FINAL_HEIGHT_PX
  rw [BASE_IMAGE_HEIGHT_PX_eq, EXTEND_COLOR_PX_eq, WHITE_BORDER_PX_eq]

/-! Basic facts about the bottom strip and `getdata`. -/

/-- The bottom strip has the width of the source image. -/
theorem bottom_strip_width (image : Img) (H : ℕ) :
    (bottom_strip image H).width = image.width := by
  simp [bottom_strip, crop]

/-- The bottom strip has height exactly `strip_height`, whether or not
the crop box sticks out above the image. -/
theorem bottom_strip_height (image : Img) (H : ℕ) :
    (bottom_strip image H).height = H := by
  simp only [bottom_strip, crop]
  omega

/-- Inside the image (`H ≤ height`), a strip pixel is the source pixel
`H` rows above the bottom. -/
theorem bottom_strip_pixel (image : Img) (H : ℕ) (hH : H ≤ image.height)
    (x y : ℕ) (hx : x < image.width) (hy : y < H) :
    (bottom_strip image H).pixel x y = image.pixel x (image.height - H + y) := by
  simp only [bottom_strip, crop]
  rw [if_pos (by omega)]
  congr 1 <;> omega

/-- Source `getdata` lists `height * width` pixels. -/
theorem getdata_length (image : Img) :
    (getdata image).length = image.height * image.width := by
  simp only [getdata, List.length_flatMap, Function.comp_def, List.length_map,
    List.length_range]
  rw [List.map_const', List.sum_replicate, List.length_range, smul_eq_mul]

/-- A buffer that is uniformly `c` on its domain flattens to a
replicate list. -/
theorem getdata_eq_replicate (image : Img) (c : Color)
    (h : ∀ x, x < image.width → ∀ y, y < image.height → image.pixel x y = c) :
    getdata image = List.replicate (image.height * image.width) c := by
  rw [List.eq_replicate_iff]
  refine ⟨getdata_length image, ?_⟩
  intro b hb
  simp only [getdata, List.mem_flatMap, List.mem_map, List.mem_range] at hb
  obtain ⟨y, hy, x, hx, rfl⟩ := hb
  exact h x hx y hy

/-- An image with no columns or no rows flattens to no pixels. -/
theorem getdata_of_degenerate (image : Img)
    (h : image.width = 0 ∨ image.height = 0) : getdata image = [] := by
  rcases h with h | h <;> simp [getdata, h]

/-! Facts about the mode (most-common color) selection. -/

/-- Any fuel exhausts on the empty list. -/
theorem firstOccsAux_nil (fuel : ℕ) : firstOccsAux fuel [] = [] := by
  cases fuel <;> rfl

/-- Whatever the fuel, `firstOccsAux` only returns elements of the list. -/
theorem firstOccsAux_mem (fuel : ℕ) :
    ∀ (l : List Color) (x : Color), x ∈ firstOccsAux fuel l → x ∈ l := by
  induction fuel with
  | zero => intro l x hx; simp [firstOccsAux] at hx
  | succ fuel ih =>
      intro l x hx
      cases l with
      | nil => simpa [firstOccsAux] using hx
      | cons a t =>
          simp only [firstOccsAux, List.mem_cons] at hx
          rcases hx with rfl | hx
          · exact List.mem_cons_self _ _
          · exact List.mem_cons_of_mem _ (List.mem_filter.mp (ih _ _ hx)).1

/-- Source `maxByCount` returns its running best or one of the candidates. -/
theorem maxByCount_mem (l : List Color) (S : List Color) :
    ∀ (cands : List Color) (best : Color), best ∈ S → (∀ x ∈ cands, x ∈ S) →
      maxByCount l cands best ∈ S := by
  intro cands
  induction cands with
  | nil => intro best hb _; exact hb
  | cons c t ih =>
      intro best hb hc
      simp only [maxByCount]
      split
      · exact ih c (hc c (List.mem_cons_self _ _)) fun x hx =>
          hc x (List.mem_cons_of_mem _ hx)
      · exact ih best hb fun x hx => hc x (List.mem_cons_of_mem _ hx)

/-- The most common color of a nonempty list is one of its elements. -/
theorem most_common1_mem (l : List Color) (d : Color) (hl : l ≠ []) :
    most_common1 l d ∈ l := by
  cases l with
  | nil => exact absurd rfl hl
  | cons a t =>
      simp only [most_common1, firstOccs, List.length_cons, firstOccsAux]
      exact maxByCount_mem _ _ _ a (List.mem_cons_self _ _) fun x hx =>
        List.mem_cons_of_mem _ (List.mem_filter.mp (firstOccsAux_mem _ _ _ hx)).1

/-- Filtering away the common element of a replicate list empties it. -/
theorem filter_ne_self_replicate (c : Color) (n : ℕ) :
    (List.replicate n c).filter (fun b => b ≠ c) = [] := by
  simp [List.filter_replicate]

/-- Filtering by a different color keeps a replicate list whole. -/
theorem filter_ne_replicate (c d : Color) (hcd : c ≠ d) (n : ℕ) :
    (List.replicate n c).filter (fun b => b ≠ d) = List.replicate n c := by
  simp [List.filter_replicate, hcd]

/-- On a nonempty uniform list the most common color is that color. -/
theorem most_common1_replicate (c d : Color) (n : ℕ) (hn : 0 < n) :
    most_common1 (List.replicate n c) d = c := by
  obtain ⟨m, rfl⟩ := Nat.exists_eq_succ_of_ne_zero hn.ne'
  simp only [most_common1, firstOccs, List.length_replicate, List.replicate_succ,
    firstOccsAux, filter_ne_self_replicate, firstOccsAux_nil]
  rfl

/-! Claim theorems about the color samplers. -/

/-- Claim C4 (counterexample input): a 1x1 image every pixel of which
is the uniform non-white color `(200, 0, 0)`. -/
def uniform_red_1x1 : Img where
  width := 1
  height := 1
  pixel := fun _ _ => (200, 0, 0)

/-- Claim C4, as stated, is false: `uniform_red_1x1` is uniformly the
non-white color `(200, 0, 0)`, yet the mode sampler at the
strip height 5 used by the program returns the black crop padding `(0, 0, 0)`, because the
5-pixel bottom strip of a 1-pixel-tall image contains four out-of-bounds
black pixels that outnumber the single real pixel. -/
theorem mode_sampler_uniform_cex :
    uniform_red_1x1.pixel = (fun _ _ => (200, 0, 0)) ∧
    (200, 0, 0) ≠ white ∧
    get_bottom_color uniform_red_1x1 5 = (0, 0, 0) ∧
    get_bottom_color uniform_red_1x1 5 ≠ (200, 0, 0) := by
  refine ⟨rfl, by decide, by decide, by decide⟩

/-- Claim C4 (amended): for every image all of whose pixels are a
single uniform color `C ≠ white`, and every strip height that is
positive and at most the image height (so the sampling strip lies
inside the image and is nonempty), the mode-strategy sampler returns
exactly `C`. -/
theorem mode_sampler_uniform (image : Img) (C : Color) (H : ℕ)
    (hC : C ≠ white) (hw : 0 < image.width) (hH : 0 < H)
    (hHh : H ≤ image.height)
    (huniform : ∀ x, x < image.width → ∀ y, y < image.height →
      image.pixel x y = C) :
    get_bottom_color image H = C := by
  have hpix : getdata (bottom_strip image H) =
      List.replicate (H * image.width) C := by
    have hs := getdata_eq_replicate (bottom_strip image H) C ?_
    · rwa [bottom_strip_height, bottom_strip_width] at hs
    · intro x hx y hy
      rw [bottom_strip_width] at hx
      rw [bottom_strip_height] at hy
      rw [bottom_strip_pixel image H hHh x y hx hy]
      exact huniform x hx _ (by omega)
  have hn : 0 < H * image.width := Nat.mul_pos hH hw
  simp only [get_bottom_color, hpix]
  rw [filter_ne_replicate C (255, 255, 255) (by simpa [white] using hC)]
  rw [if_neg (by simp [List.isEmpty_iff, hn.ne'])]
  exact most_common1_replicate C _ _ hn

/-- Claim C4 witness: a 2x3 image uniformly colored `(10, 20, 30)`
sampled with strip height 2 yields `(10, 20, 30)`. -/
theorem mode_sampler_uniform_witness :
    get_bottom_color ⟨2, 3, fun _ _ => (10, 20, 30)⟩ 2 = (10, 20, 30) :=
  mode_sampler_uniform ⟨2, 3, fun _ _ => (10, 20, 30)⟩ (10, 20, 30) 2
    (by decide) (by decide) (by decide) (by decide)
    (fun _ _ _ _ => rfl)

/-- Claim C7: an empty sampling region — strip height 0 or a zero-size
(0x0) image — crashes neither sampler, and both return white. -/
theorem empty_region_white (image : Img) (H : ℕ)
    (h : H = 0 ∨ (image.width = 0 ∧ image.height = 0)) :
    get_bottom_average_color image H = white ∧
    get_bottom_color image H = white := by
  have hempty : getdata (bottom_strip image H) = [] := by
    rcases h with h | h
    · apply getdata_of_degenerate
      right
      rw [bottom_strip_height, h]
    · apply getdata_of_degenerate
      left
      rw [bottom_strip_width]
      exact h.1
  constructor
  · simp [get_bottom_average_color, hempty, white]
  · simp [get_bottom_color, hempty, white]

/-- Claim C7 witness: the 0x0 image with strip height 3 gives white for
both strategies. -/
theorem empty_region_white_witness :
    get_bottom_average_color ⟨0, 0, fun _ _ => (1, 2, 3)⟩ 3 = white ∧
    get_bottom_color ⟨0, 0, fun _ _ => (1, 2, 3)⟩ 3 = white :=
  empty_region_white ⟨0, 0, fun _ _ => (1, 2, 3)⟩ 3 (Or.inr ⟨rfl, rfl⟩)

/-- Claim C10: the mode sampler has no dominance threshold — whenever
the bottom strip contains at least one non-white pixel, the returned
color is non-white, no matter how many white pixels surround it. -/
theorem mode_sampler_nonwhite (image : Img) (H : ℕ)
    (h : ∃ p ∈ getdata (bottom_strip image H), p ≠ white) :
    get_bottom_color image H ≠ white := by
  obtain ⟨p, hp, hpw⟩ := h
  simp only [get_bottom_color]
  have hne : (getdata (bottom_strip image H)).filter
      (fun q => q ≠ (255, 255, 255)) ≠ [] := by
    intro hcontra
    have hmem : p ∈ (getdata (bottom_strip image H)).filter
        (fun q => q ≠ (255, 255, 255)) :=
      List.mem_filter.mpr ⟨hp, by simpa [white] using hpw⟩
    rw [hcontra] at hmem
    simp at hmem
  rw [if_neg (by simpa [List.isEmpty_iff] using hne)]
  intro hcontra
  have hmem := most_common1_mem _ (255, 255, 255) hne
  rw [hcontra] at hmem
  have := (List.mem_filter.mp hmem).2
  simp [white] at this

/-- Claim C10 witness: a strip holding one white and one gray pixel
yields a non-white answer. -/
theorem mode_sampler_nonwhite_witness :
    get_bottom_color ⟨2, 1, fun x _ => if x = 0 then (255, 255, 255) else (9, 9, 9)⟩ 1 ≠ white :=
  mode_sampler_nonwhite ⟨2, 1, fun x _ => if x = 0 then (255, 255, 255) else (9, 9, 9)⟩ 1
    (by decide)

/-! Claim theorems about normalization and export. -/

/-- Claim C3: for every valid non-empty source image — including a
degenerate 1x1 input — `process_image` returns a buffer of exactly
`DESIGN_FINAL_WIDTH_PX x DESIGN_FINAL_HEIGHT_PX`. -/
theorem process_image_dims (image : Img)
    (hw : 0 < image.width) (hh : 0 < image.height) :
    (process_image image).width = DESIGN_FINAL_WIDTH_PX ∧
    (process_image image).height = DESIGN_FINAL_HEIGHT_PX :=
  ⟨rfl, rfl⟩

/-- Claim C3 witness: the degenerate 1x1 black image normalizes to the
design dimension. -/
theorem process_image_dims_witness :
    (process_image ⟨1, 1, fun _ _ => (0, 0, 0)⟩).width = DESIGN_FINAL_WIDTH_PX ∧
    (process_image ⟨1, 1, fun _ _ => (0, 0, 0)⟩).height = DESIGN_FINAL_HEIGHT_PX :=
  process_image_dims ⟨1, 1, fun _ _ => (0, 0, 0)⟩ (by decide) (by decide)

/-- Claim C5: extending an image by the same margin `m` on all four
sides (the `ImageOps.expand` border-extension step, before any resize)
grows both the width and the height by exactly `2 * m`. -/
theorem extend_symmetric_growth (image : Img) (m : ℕ) (fill : Color) :
    (expand image m m m m fill).width = image.width + 2 * m ∧
    (expand image m m m m fill).height = image.height + 2 * m := by
  constructor <;> simp [expand] <;> omega

/-- Claim C8: every unrecognized output-format selector (anything
other than `png`, `pdf`, `svg`, `ai`) does not fail: the canvas is
encoded as PNG at `output/final_canvas_<index>.png`. -/
theorem export_fallback (output_format : String) (canvas_index : ℕ)
    (h1 : output_format ≠ "png") (h2 : output_format ≠ "pdf")
    (h3 : output_format ≠ "svg") (h4 : output_format ≠ "ai") :
    collage_output output_format canvas_index =
      ("output/final_canvas_" ++ toString canvas_index ++ ".png",
       Encoding.png) := by
  simp only [collage_output, if_neg h1, if_neg h2, if_neg h3, if_neg h4]
  simp only [String.append_assoc]
  rw [show ("output/final_canvas_" : String) = "output/" ++ "final_canvas_" from rfl,
    String.append_assoc]

/-- Claim C8 witness: format `jpg` (rejected selector) for canvas 7
falls back to `output/final_canvas_7.png` as a PNG. -/
theorem export_fallback_witness :
    collage_output "jpg" 7 = ("output/final_canvas_7.png", Encoding.png) := by
  rw [export_fallback "jpg" 7 (by decide) (by decide) (by decide) (by decide)]
  decide

/-- The paste schedule has one entry per image. -/
theorem collage_pastes_length (processed_images : List Img) :
    (collage_pastes processed_images).length = processed_images.length := by
  simp [collage_pastes]

/-- Claim C1: within one canvas, the image at chunk-local index
`i < COLUMNS * ROWS` is pasted (after cell fitting) into cell
`row = i / COLUMNS`, `col = i % COLUMNS`, at pixel origin
`(col * CELL_WIDTH, row * CELL_HEIGHT)`. -/
theorem collage_cell_assignment (processed_images : List Img) (i : ℕ)
    (hi : i < processed_images.length) (hcap : i < COLUMNS * ROWS) :
    (collage_pastes processed_images)[i]? =
      some (fit (processed_images.get ⟨i, hi⟩) CELL_WIDTH CELL_HEIGHT,
        (i % COLUMNS) * CELL_WIDTH, (i / COLUMNS) * CELL_HEIGHT) := by
  simp only [collage_pastes, List.getElem?_map, List.getElem?_enum,
    List.getElem?_eq_getElem hi, Option.map_some]
  rfl

/-- Claim C1 witness: in a 17-image chunk, the image at index 16 lands
in cell `row = 1, col = 1`, i.e. at origin `(CELL_WIDTH, CELL_HEIGHT)`. -/
theorem collage_cell_assignment_witness :
    (collage_pastes (List.replicate 17 blank_canvas))[16]? =
      some (fit blank_canvas CELL_WIDTH CELL_HEIGHT,
        1 * CELL_WIDTH, 1 * CELL_HEIGHT) := by
  have h := collage_cell_assignment (List.replicate 17 blank_canvas) 16
    (by simp) (by decide)
  rw [h, List.get_replicate]
  norm_num [COLUMNS]

/-! Facts about the batching loop. -/

/-- The loop yields nothing for an empty input. -/
theorem chunksOf_nil (K : ℕ) : chunksOf K [] = [] := by
  rw [chunksOf]
  simp

/-- One iteration of the loop on a nonempty input. -/
theorem chunksOf_cons (K : ℕ) (hK : K ≠ 0) (l : List Img) (hl : l ≠ []) :
    chunksOf K l = l.take K :: chunksOf K (l.drop K) := by
  rw [chunksOf, dif_neg (by simp [hK, List.isEmpty_iff, hl])]

/-- Concatenating the chunks restores the input: the chunks are
contiguous and order-preserving. -/
theorem chunksOf_flatten (K : ℕ) (hK : K ≠ 0) (l : List Img) :
    (chunksOf K l).flatten = l := by
  suffices h : ∀ (n : ℕ) (l : List Img), l.length ≤ n →
      (chunksOf K l).flatten = l from h l.length l le_rfl
  intro n
  induction n with
  | zero =>
      intro l hl
      obtain rfl := List.length_eq_zero.mp (Nat.le_zero.mp hl)
      rw [chunksOf_nil]
      rfl
  | succ n ih =>
      intro l hl
      by_cases hl0 : l = []
      · subst hl0
        rw [chunksOf_nil]
        rfl
      · rw [chunksOf_cons K hK l hl0, List.flatten_cons,
          ih (l.drop K) (by simp only [List.length_drop]; omega)]
        exact List.take_append_drop K l

/-- The loop runs `ceil(N / K) = (N + K - 1) / K` times. -/
theorem chunksOf_length (K : ℕ) (hK : K ≠ 0) (l : List Img) :
    (chunksOf K l).length = (l.length + K - 1) / K := by
  suffices h : ∀ (n : ℕ) (l : List Img), l.length ≤ n →
      (chunksOf K l).length = (l.length + K - 1) / K from h l.length l le_rfl
  intro n
  induction n with
  | zero =>
      intro l hl
      obtain rfl := List.length_eq_zero.mp (Nat.le_zero.mp hl)
      rw [chunksOf_nil]
      simp only [List.length_nil]
      exact (Nat.div_eq_of_lt (by omega)).symm
  | succ n ih =>
      intro l hl
      by_cases hl0 : l = []
      · subst hl0
        rw [chunksOf_nil]
        simp only [List.length_nil]
        exact (Nat.div_eq_of_lt (by omega)).symm
      · rw [chunksOf_cons K hK l hl0, List.length_cons,
          ih (l.drop K) (by simp only [List.length_drop]; omega),
          List.length_drop]
        have hN : 1 ≤ l.length := List.length_pos.mpr hl0
        have e1 : (l.length + K - 1) / K = (l.length - 1) / K + 1 := by
          rw [Nat.div_eq_sub_div (Nat.pos_of_ne_zero hK) (by omega)]
          congr 2
          omega
        rw [e1]
        congr 1
        by_cases hKN : K ≤ l.length
        · congr 1
          omega
        · rw [Nat.div_eq_of_lt (show l.length - K + K - 1 < K by omega),
            Nat.div_eq_of_lt (show l.length - 1 < K by omega)]

/-- Each of the first `floor(N / K)` chunks is full: it holds exactly
`K` images. -/
theorem chunksOf_full (K : ℕ) (hK : K ≠ 0) (l : List Img) (j : ℕ)
    (c : List Img) (hj : j < l.length / K) (hc : (chunksOf K l)[j]? = some c) :
    c.length = K := by
  induction j using Nat.strong_induction_on generalizing l with
  | _ j ih =>
    have hl0 : l ≠ [] := by
      intro hcontra
      subst hcontra
      simp at hj
    have hpos : 0 < l.length / K := Nat.lt_of_le_of_lt (Nat.zero_le j) hj
    have hKN : K ≤ l.length := (Nat.one_le_div_iff (Nat.pos_of_ne_zero hK)).mp hpos
    rw [chunksOf_cons K hK l hl0] at hc
    cases j with
    | zero =>
        rw [List.getElem?_cons_zero] at hc
        obtain rfl := Option.some_injective _ hc
        rw [List.length_take]
        exact Nat.min_eq_left hKN
    | succ j =>
        rw [List.getElem?_cons_succ] at hc
        have hsub : l.length / K = (l.length - K) / K + 1 :=
          Nat.div_eq_sub_div (Nat.pos_of_ne_zero hK) hKN
        refine ih j (Nat.lt_succ_self j) (l.drop K) ?_ hc
        rw [List.length_drop]
        rw [hsub] at hj
        exact Nat.lt_of_succ_lt_succ hj

/-- The last chunk holds `N mod K` images, or `K` when `K` divides a
nonzero `N`. -/
theorem chunksOf_last (K : ℕ) (hK : K ≠ 0) (l : List Img) (c : List Img)
    (hl0 : l ≠ []) (hc : (chunksOf K l).getLast? = some c) :
    c.length = if l.length % K = 0 then K else l.length % K := by
  suffices h : ∀ (n : ℕ) (l : List Img), l.length ≤ n → l ≠ [] →
      (chunksOf K l).getLast? = some c →
      c.length = if l.length % K = 0 then K else l.length % K from
    h l.length l le_rfl hl0 hc
  clear hl0 hc l
  intro n
  induction n with
  | zero =>
      intro l hl hl0 _
      exact absurd (List.length_eq_zero.mp (Nat.le_zero.mp hl)) hl0
  | succ n ih =>
    intro l hl hl0 hc
    rw [chunksOf_cons K hK l hl0] at hc
    by_cases hd : l.drop K = []
    · rw [hd, chunksOf_nil] at hc
      obtain rfl := Option.some_injective _ (by simpa using hc)
      have hNK : l.length ≤ K := by
        have hlen := List.length_drop K l
        rw [hd] at hlen
        simp only [List.length_nil] at hlen
        omega
      have hN : 1 ≤ l.length := List.length_pos.mpr hl0
      rw [List.length_take, Nat.min_eq_right hNK]
      by_cases hEq : l.length = K
      · rw [hEq]
        simp [Nat.mod_self]
      · rw [Nat.mod_eq_of_lt (by omega), if_neg (by omega)]
    · have hc2 : (chunksOf K (l.drop K)).getLast? = some c := by
        rw [chunksOf_cons K hK _ hd] at hc ⊢
        rw [List.getLast?_cons_cons] at hc
        exact hc
      have hKN : K ≤ l.length := by
        have hpos := List.length_pos.mpr hd
        rw [List.length_drop] at hpos
        omega
      have hrec := ih (l.drop K)
        (by simp only [List.length_drop]; omega) hd hc2
      rw [List.length_drop] at hrec
      have hmod : (l.length - K) % K = l.length % K := by
        conv_rhs => rw [← Nat.sub_add_cancel hKN]
        rw [Nat.add_mod_right]
      rwa [hmod] at hrec

/-- Claim C2: the batching loop of `main` partitions the processed
images into contiguous order-preserving chunks of capacity
`K = COLUMNS * ROWS`; it yields exactly `ceil(N / K)` canvases, the
first `floor(N / K)` full with `K` images, the last holding `N mod K`
(or `K` when `K` divides `N`), and zero canvases for `N = 0`. -/
theorem main_batching (processed_images : List Img) :
    (chunksOf (COLUMNS * ROWS) processed_images).flatten = processed_images ∧
    (chunksOf (COLUMNS * ROWS) processed_images).length =
      (processed_images.length + COLUMNS * ROWS - 1) / (COLUMNS * ROWS) ∧
    (∀ j c, j < processed_images.length / (COLUMNS * ROWS) →
      (chunksOf (COLUMNS * ROWS) processed_images)[j]? = some c →
      c.length = COLUMNS * ROWS) ∧
    (∀ c, (chunksOf (COLUMNS * ROWS) processed_images).getLast? = some c →
      c.length = if processed_images.length % (COLUMNS * ROWS) = 0
        then COLUMNS * ROWS else processed_images.length % (COLUMNS * ROWS)) ∧
    chunksOf (COLUMNS * ROWS) [] = [] := by
  have hK : COLUMNS * ROWS ≠ 0 := by decide
  refine ⟨chunksOf_flatten _ hK _, chunksOf_length _ hK _, ?_, ?_, chunksOf_nil _⟩
  · intro j c hj hc
    exact chunksOf_full _ hK _ j c hj hc
  · intro c hc
    by_cases h0 : processed_images = []
    · subst h0
      rw [chunksOf_nil] at hc
      simp at hc
    · exact chunksOf_last _ hK _ c h0 hc

/-- Claim C2 witness: 151 images yield 2 canvases; the first holds
`COLUMNS * ROWS = 150` images and the last holds `151 mod 150 = 1`. -/
theorem main_batching_witness :
    (chunksOf (COLUMNS * ROWS) (List.replicate 151 blank_canvas)).flatten =
      List.replicate 151 blank_canvas ∧
    (chunksOf (COLUMNS * ROWS) (List.replicate 151 blank_canvas)).length = 2 ∧
    (List.replicate 150 blank_canvas : List Img).length = COLUMNS * ROWS ∧
    (List.replicate 1 blank_canvas : List Img).length = 151 % (COLUMNS * ROWS) := by
  have h := main_batching (List.replicate 151 blank_canvas)
  have e : chunksOf (COLUMNS * ROWS) (List.replicate 151 blank_canvas) =
      [List.replicate 150 blank_canvas, List.replicate 1 blank_canvas] := by
    rw [chunksOf_cons _ (by decide) _ (List.ne_nil_of_length_pos (by simp)),
      List.take_replicate, List.drop_replicate]
    norm_num [COLUMNS, ROWS]
    rw [chunksOf_cons _ (by decide) _ (by simp)]
    simp [chunksOf_nil]
  refine ⟨h.1, ?_, ?_, ?_⟩
  · rw [h.2.1]
    norm_num [COLUMNS, ROWS]
  · refine h.2.2.1 0 (List.replicate 150 blank_canvas) ?_ (by rw [e]; rfl)
    norm_num [COLUMNS, ROWS]
  · have h4 := h.2.2.2.1 (List.replicate 1 blank_canvas) (by rw [e]; rfl)
    rw [h4, List.length_replicate]
    norm_num [COLUMNS, ROWS]

/-! Facts about the all-or-nothing failure policy of `main`. -/

/-- The comprehension aborts with no value at the first decode failure. -/
theorem process_all_eq_none (pre post : List (Option Img))
    (hpre : ∀ x ∈ pre, x ≠ none) :
    process_all (pre ++ none :: post) = none := by
  induction pre with
  | nil => rfl
  | cons a t ih =>
      cases a with
      | none => exact absurd rfl (hpre none (List.mem_cons_self _ _))
      | some img =>
          simp only [List.cons_append, process_all, List.append_eq]
          rw [ih fun x hx => hpre x (List.mem_cons_of_mem _ hx)]
          rfl

/-- Exactly the images strictly before the first failure get processed. -/
theorem processed_prefix_eq (pre post : List (Option Img))
    (hpre : ∀ x ∈ pre, x ≠ none) :
    processed_prefix (pre ++ none :: post) =
      pre.reduceOption.map process_image := by
  induction pre with
  | nil => rfl
  | cons a t ih =>
      cases a with
      | none => exact absurd rfl (hpre none (List.mem_cons_self _ _))
      | some img =>
          simp only [List.cons_append, processed_prefix,
            List.reduceOption_cons_of_some, List.map_cons, List.append_eq]
          rw [ih fun x hx => hpre x (List.mem_cons_of_mem _ hx)]

/-- Claim C6: a single decode/processing failure is not caught per
image and not patched with a placeholder: the comprehension yields no
result, only the images strictly before the failing file were
processed, and `main` writes no canvas at all. -/
theorem abort_on_first_failure (pre post : List (Option Img))
    (hpre : ∀ x ∈ pre, x ≠ none) :
    process_all (pre ++ none :: post) = none ∧
    processed_prefix (pre ++ none :: post) =
      pre.reduceOption.map process_image ∧
    main_canvases (pre ++ none :: post) = [] := by
  refine ⟨process_all_eq_none pre post hpre, processed_prefix_eq pre post hpre, ?_⟩
  simp [main_canvases, process_all_eq_none pre post hpre]

/-- Claim C6 witness: one good file followed by one failing file
processes only the first image and writes nothing. -/
theorem abort_on_first_failure_witness :
    process_all [some blank_canvas, none] = none ∧
    processed_prefix [some blank_canvas, none] = [process_image blank_canvas] ∧
    main_canvases [some blank_canvas, none] = [] := by
  have h := abort_on_first_failure [some blank_canvas] [] (by simp)
  simpa using h

/-! Facts about paste geometry on the canvas. -/

/-- A pixel to the right of every scheduled paste is untouched by the
paste fold. -/
theorem foldl_paste_pixel_out (ps : List (Img × ℕ × ℕ)) (c : Img) (px py : ℕ)
    (h : ∀ q ∈ ps, q.2.1 + q.1.width ≤ px) :
    (ps.foldl (fun canvas q => paste canvas q.1 q.2.1 q.2.2) c).pixel px py =
      c.pixel px py := by
  induction ps generalizing c with
  | nil => rfl
  | cons q t ih =>
      rw [List.foldl_cons, ih _ fun r hr => h r (List.mem_cons_of_mem _ hr)]
      simp only [paste]
      rw [if_neg]
      intro hcond
      have hq := h q (List.mem_cons_self _ _)
      omega

/-- The paste fold never changes the canvas dimensions. -/
theorem foldl_paste_dims (ps : List (Img × ℕ × ℕ)) (c : Img) :
    (ps.foldl (fun canvas q => paste canvas q.1 q.2.1 q.2.2) c).width = c.width ∧
    (ps.foldl (fun canvas q => paste canvas q.1 q.2.1 q.2.2) c).height = c.height := by
  induction ps generalizing c with
  | nil => exact ⟨rfl, rfl⟩
  | cons q t ih => exact ⟨(ih _).1, (ih _).2⟩

/-- Claim C9: grid geometry keeps every paste inside the canvas —
`COLUMNS * CELL_WIDTH` and `ROWS * CELL_HEIGHT` do not exceed
`CANVAS_SIZE` (the cell sizes are truncated quotients), every cell
origin plus a cell extent stays within the canvas for
`i < COLUMNS * ROWS`, the composed canvas keeps the
`CANVAS_SIZE x CANVAS_SIZE` dimensions, and the vertical remainder
strip left of the truncation (columns at or beyond
`COLUMNS * CELL_WIDTH`) is never painted and stays white. -/
theorem paste_containment :
    COLUMNS * CELL_WIDTH ≤ CANVAS_SIZE ∧
    ROWS * CELL_HEIGHT ≤ CANVAS_SIZE ∧
    (∀ imgs, (create_collage_canvas imgs).width = CANVAS_SIZE ∧
      (create_collage_canvas imgs).height = CANVAS_SIZE) ∧
    (∀ i, i < COLUMNS * ROWS →
      (i % COLUMNS) * CELL_WIDTH + CELL_WIDTH ≤ CANVAS_SIZE ∧
      (i / COLUMNS) * CELL_HEIGHT + CELL_HEIGHT ≤ CANVAS_SIZE) ∧
    (∀ imgs px py, COLUMNS * CELL_WIDTH ≤ px →
      (create_collage_canvas imgs).pixel px py = white) := by
  refine ⟨?_, ?_, ?_, ?_, ?_⟩
  · rw [CELL_WIDTH_eq, CANVAS_SIZE_eq]
    decide
  · rw [CELL_HEIGHT_eq, CANVAS_SIZE_eq]
    decide
  · intro imgs
    exact foldl_paste_dims _ _
  · intro i hi
    rw [CELL_WIDTH_eq, CELL_HEIGHT_eq, CANVAS_SIZE_eq]
    simp only [COLUMNS, ROWS] at hi ⊢
    omega
  · intro imgs px py hpx
    unfold create_collage_canvas
    rw [foldl_paste_pixel_out]
    · rfl
    · intro q hq
      simp only [collage_pastes, List.mem_map] at hq
      obtain ⟨p, hp, rfl⟩ := hq
      refine le_trans ?_ hpx
      have hmod : p.1 % COLUMNS + 1 ≤ COLUMNS := Nat.mod_lt _ (by decide)
      calc p.1 % COLUMNS * CELL_WIDTH + (fit p.2 CELL_WIDTH CELL_HEIGHT).width
          = (p.1 % COLUMNS + 1) * CELL_WIDTH := by
            simp only [fit]
            ring
        _ ≤ COLUMNS * CELL_WIDTH := Nat.mul_le_mul_right _ hmod

/-- Claim C9 witness: index 16 stays inside the canvas, and the pixel
column at `COLUMNS * CELL_WIDTH` of a composed empty canvas is white. -/
theorem paste_containment_witness :
    ((16 % COLUMNS) * CELL_WIDTH + CELL_WIDTH ≤ CANVAS_SIZE) ∧
    (create_collage_canvas []).pixel (COLUMNS * CELL_WIDTH) 0 = white :=
  ⟨(paste_containment.2.2.2.1 16 (by decide)).1,
   paste_containment.2.2.2.2 [] (COLUMNS * CELL_WIDTH) 0 le_rfl⟩

end CardCover
